import Mathlib

/-!
# Verification of the youtube-to-mp3 job-lifecycle server (`src/server.js`)

This file gives a shallow embedding of the job orchestration and lifecycle
core of `src/server.js`:

* the `Job` record stored in the `jobs` map (`server.js:37-43`),
* the Progress Simulator (`simulateProgress`, `server.js:222-245`),
* the Conversion Orchestrator's promise chain (`processConversion`,
  `server.js:140-220`) as an event-step machine over one job,
* the `POST /api/convert` handler (`server.js:25-54`),
* the `GET /api/download/:jobId` handler and its delayed cleanup
  (`server.js:77-110`),
* the Retention Sweeper interval (`server.js:269-300`).

JavaScript floats feeding the progress accumulator (`Math.random() * 5`)
are modelled as rationals; machine-time `Date.now()` values as naturals;
the `jobs` `Map` as an association list with `Map.set` replace-or-append
semantics; the `downloads` directory as a list of file entries.
-/

namespace YoutubeToMp3

/-- The `status` field of a job: `'processing' | 'completed' | 'error'`. -/
inductive Status where
  | processing
  | completed
  | error
deriving DecidableEq, Repr

/-- A job record as created at `server.js:37-43` and mutated by
`processConversion` and `simulateProgress`.  `error` is the failure
description field; `hasInterval` models the presence of the
`progressIntervalId` property (the handle to the running simulator). -/
structure Job where
  id : String
  status : Status
  title : String
  quality : String
  progress : Nat
  error : Option String
  hasInterval : Bool
deriving DecidableEq, Repr

/-- `Math.floor` on a non-negative rational, landing in `Nat`
(the `job.progress` field only ever holds non-negative integers). -/
def floorNat (q : ℚ) : Nat := (⌊q⌋).toNat

/-- Per-job mutable state: the registry record for the job together with
the simulator closure's local `progress` variable (`server.js:226`),
which is distinct from `job.progress`. -/
structure SimState where
  job : Job
  localProgress : ℚ
deriving DecidableEq, Repr

/-- JS `/[^\w\s]/gi` removal (`server.js:159`): keep exactly the word
characters (`\w` = ASCII letters, digits, underscore). -/
def jsIsWordChar (c : Char) : Bool := c.isAlpha || c.isDigit || c = '_'

/-- Whitespace characters matched by `\s` (ASCII portion). -/
def jsIsSpace (c : Char) : Bool :=
  c = ' ' || c = '\t' || c = '\n' || c = '\r' || c = '\x0b' || c = '\x0c'

/-- `info.title.replace(/[^\w\s]/gi, '')` (`server.js:159`): drop every
character that is neither a word character nor whitespace. -/
def sanitizeTitle (t : String) : String :=
  String.mk (t.toList.filter (fun c => jsIsWordChar c || jsIsSpace c))

/-- The sanitization as the specification words it: strip every
non-alphanumeric, non-whitespace character (so underscores are stripped).
Stated only to compare against `sanitizeTitle`. -/
def specSanitize (t : String) : String :=
  String.mk (t.toList.filter (fun c => c.isAlphanum || jsIsSpace c))

/-- One firing of the `setInterval` callback in `simulateProgress`
(`server.js:230-244`), with `r` the sampled `Math.random() * 5`.
If the job is already terminal, the interval is cleared and nothing else
changes; otherwise, when the *local* accumulator is below 90 it is
advanced by `r`, clamped at 90 (`Math.min`), and its floor is written to
`job.progress`. -/
def progressTick (s : SimState) (r : ℚ) : SimState :=
  if s.job.status = .completed ∨ s.job.status = .error then
    { s with job := { s.job with hasInterval := false } }
  else if s.localProgress < 90 then
    let p0 := s.localProgress + r
    let p := if p0 < 90 then p0 else 90
    { job := { s.job with progress := floorNat p }, localProgress := p }
  else s

/-- The metadata `.then(info => ...)` handler (`server.js:156-164`): when
the provider title is truthy (non-empty), store its sanitized form, keep
status `processing`, and set `progress` to the fixed value 20.  The
simulator's local accumulator is *not* touched. -/
def metaThen (s : SimState) (title : String) : SimState :=
  if title ≠ "" then
    { s with job := { s.job with
        title := sanitizeTitle title
        status := .processing
        progress := 20 } }
  else s

/-- The completion `.then(() => ...)` handler (`server.js:181-194`):
clear the simulator interval, set status `completed` and progress 100. -/
def conversionThen (s : SimState) : SimState :=
  { s with job := { s.job with
      status := .completed
      progress := 100
      hasInterval := false } }

/-- The `.catch(error => ...)` handler's registry part
(`server.js:196-209`): clear the simulator interval, set status `error`
and record the failure message.  `progress` is left at its last value. -/
def conversionCatch (s : SimState) (msg : String) : SimState :=
  { s with job := { s.job with
      status := .error
      error := some msg
      hasInterval := false } }

/-- The asynchronous events that can hit one job's state after creation:
a simulator tick, metadata resolution, extraction resolution, or a
rejection of either provider call. -/
inductive Event where
  | tick (r : ℚ)
  | metaSuccess (title : String)
  | extractSuccess
  | fail (msg : String)
deriving DecidableEq, Repr

/-- Dispatch one event to the handler that the source runs for it. -/
def step (s : SimState) (e : Event) : SimState :=
  match e with
  | .tick r => progressTick s r
  | .metaSuccess t => metaThen s t
  | .extractSuccess => conversionThen s
  | .fail m => conversionCatch s m

/-- Where the promise chain of `processConversion` currently stands:
awaiting the metadata call, awaiting the extraction call, or settled. -/
inductive Phase where
  | awaitingMeta
  | awaitingExtract
  | done
deriving DecidableEq, Repr

/-- Which events are possible in which phase, mirroring the promise chain
of `server.js:150-219`: ticks can fire at any time (with an increment in
`[0, 5)` from `Math.random() * 5`); metadata resolves first; extraction
resolves only after metadata succeeded; either call's rejection reaches
the single `.catch`; nothing settles twice. -/
def phaseStep : Phase → Event → Option Phase
  | ph, .tick r => if 0 ≤ r ∧ r < 5 then some ph else none
  | .awaitingMeta, .metaSuccess _ => some .awaitingExtract
  | .awaitingMeta, .fail _ => some .done
  | .awaitingExtract, .extractSuccess => some .done
  | .awaitingExtract, .fail _ => some .done
  | _, _ => none

/-- Run the phase automaton over a whole event list. -/
def phaseAfter : Phase → List Event → Option Phase
  | ph, [] => some ph
  | ph, e :: es =>
    match phaseStep ph e with
    | some ph2 => phaseAfter ph2 es
    | none => none

/-- An event interleaving the real server can produce for one job,
starting right after `processConversion` begins. -/
def validTrace (es : List Event) : Bool :=
  (phaseAfter Phase.awaitingMeta es).isSome

/-- The job entry created by `POST /api/convert` (`server.js:37-43`). -/
def mkJob (id quality : String) : Job :=
  { id := id
    status := .processing
    title := "Unknown Title"
    quality := quality
    progress := 0
    error := none
    hasInterval := false }

/-- The synchronous start of `simulateProgress` (`server.js:222-230`):
set the local accumulator and `job.progress` to 5 and install the
interval handle. -/
def simStart (j : Job) : SimState :=
  { job := { j with progress := 5, hasInterval := true }
    localProgress := 5 }

/-- Per-job state at the moment `processConversion` has called
`simulateProgress` and issued the metadata request. -/
def startState (id quality : String) : SimState :=
  simStart (mkJob id quality)

/-- Fold a list of events through `step`. -/
def run (s : SimState) (es : List Event) : SimState :=
  es.foldl step s

/-- Floor into `Nat` respects upper bounds by natural numbers. -/
theorem floorNat_le_of_le {q : ℚ} {n : Nat} (h : q ≤ (n : ℚ)) : floorNat q ≤ n := by
  have h1 : ⌊q⌋ ≤ ⌊((n : ℚ))⌋ := Int.floor_le_floor h
  have h2 : ⌊((n : ℚ))⌋ = (n : ℤ) := Int.floor_natCast n
  unfold floorNat
  omega

/-- `floorNat` is monotone. -/
theorem floorNat_mono {a b : ℚ} (h : a ≤ b) : floorNat a ≤ floorNat b :=
  Int.toNat_le_toNat (Int.floor_le_floor h)

/-- State invariant maintained along every per-job execution: the local
accumulator stays within `[0, 90]`, a completed job shows progress 100,
and a job in any other status shows progress at most 90. -/
def Inv (s : SimState) : Prop :=
  0 ≤ s.localProgress ∧ s.localProgress ≤ 90 ∧
    (s.job.status = .completed → s.job.progress = 100) ∧
    (s.job.status ≠ .completed → s.job.progress ≤ 90)

/-- `Inv` strengthened with phase information: while a provider call is
still pending the job is in `processing` status. -/
def PhInv (ph : Phase) (s : SimState) : Prop :=
  Inv s ∧ ((ph = .awaitingMeta ∨ ph = .awaitingExtract) → s.job.status = .processing)

/-- One valid event preserves the strengthened invariant. -/
theorem stepInv {ph ph2 : Phase} {s : SimState} {e : Event}
    (hstep : phaseStep ph e = some ph2) (hinv : PhInv ph s) :
    PhInv ph2 (step s e) := by
  obtain ⟨⟨hl0, hl90, hc, hnc⟩, hph⟩ := hinv
  cases e with
  | tick r =>
    have hr : (0 ≤ r ∧ r < 5) ∧ ph2 = ph := by
      by_cases h : 0 ≤ r ∧ r < 5
      · simp only [phaseStep, if_pos h, Option.some.injEq] at hstep
        exact ⟨h, hstep.symm⟩
      · simp only [phaseStep, if_neg h] at hstep
        exact Option.noConfusion hstep
    obtain ⟨⟨hr0, hr5⟩, rfl⟩ := hr
    simp only [step, progressTick]
    split_ifs with hterm hlt hp0
    · exact ⟨⟨hl0, hl90, hc, hnc⟩, hph⟩
    · refine ⟨⟨?_, ?_, ?_, ?_⟩, hph⟩
      · show 0 ≤ s.localProgress + r
        linarith
      · show s.localProgress + r ≤ 90
        linarith
      · intro habs
        exact absurd (Or.inl habs) hterm
      · intro _
        show floorNat (s.localProgress + r) ≤ 90
        apply floorNat_le_of_le
        push_cast
        linarith
    · refine ⟨⟨?_, ?_, ?_, ?_⟩, hph⟩
      · show (0:ℚ) ≤ 90
        norm_num
      · show (90:ℚ) ≤ 90
        norm_num
      · intro habs
        exact absurd (Or.inl habs) hterm
      · intro _
        show floorNat 90 ≤ 90
        apply floorNat_le_of_le
        norm_num
    · exact ⟨⟨hl0, hl90, hc, hnc⟩, hph⟩
  | metaSuccess t =>
    have hph2 : ph = .awaitingMeta ∧ ph2 = .awaitingExtract := by
      cases ph <;> simp_all [phaseStep]
    obtain ⟨rfl, rfl⟩ := hph2
    simp only [step, metaThen]
    split_ifs with ht
    · exact ⟨⟨hl0, hl90, by simp, by simp⟩, fun _ => rfl⟩
    · exact ⟨⟨hl0, hl90, hc, hnc⟩, fun _ => hph (Or.inl rfl)⟩
  | extractSuccess =>
    have hph2 : ph = .awaitingExtract ∧ ph2 = .done := by
      cases ph <;> simp_all [phaseStep]
    obtain ⟨rfl, rfl⟩ := hph2
    exact ⟨⟨hl0, hl90, by simp [step, conversionThen], by simp [step, conversionThen]⟩,
      by simp⟩
  | fail m =>
    have hproc : s.job.status = .processing ∧ ph2 = .done := by
      cases ph with
      | awaitingMeta => exact ⟨hph (Or.inl rfl), by simpa [phaseStep] using hstep.symm⟩
      | awaitingExtract => exact ⟨hph (Or.inr rfl), by simpa [phaseStep] using hstep.symm⟩
      | done => simp [phaseStep] at hstep
    obtain ⟨hproc, rfl⟩ := hproc
    refine ⟨⟨hl0, hl90, ?_, ?_⟩, by simp⟩
    · intro habs
      simp [step, conversionCatch] at habs
    · intro _
      simp only [step, conversionCatch]
      exact hnc (by simp [hproc])

/-- A whole valid event list preserves the strengthened invariant. -/
theorem runInv {ph ph2 : Phase} {s : SimState} {es : List Event}
    (h : phaseAfter ph es = some ph2) (hinv : PhInv ph s) :
    PhInv ph2 (run s es) := by
  induction es generalizing ph s with
  | nil =>
    simp only [phaseAfter, Option.some.injEq] at h
    subst h
    simpa [run] using hinv
  | cons e es ih =>
    simp only [phaseAfter] at h
    cases hps : phaseStep ph e with
    | none => rw [hps] at h; simp at h
    | some ph1 =>
      rw [hps] at h
      exact ih h (stepInv hps hinv)

/-- The invariant holds at the start of a conversion. -/
theorem startStateInv (id quality : String) :
    PhInv .awaitingMeta (startState id quality) := by
  refine ⟨⟨by norm_num [startState, simStart, mkJob], by norm_num [startState, simStart, mkJob],
    ?_, ?_⟩, ?_⟩ <;> simp [startState, simStart, mkJob]

/-- The phase automaton splits over list concatenation. -/
theorem phaseAfter_append (ph : Phase) (es fs : List Event) :
    phaseAfter ph (es ++ fs) = (phaseAfter ph es).bind (fun p => phaseAfter p fs) := by
  induction es generalizing ph with
  | nil => simp [phaseAfter]
  | cons e es ih =>
    simp only [List.cons_append, phaseAfter]
    cases phaseStep ph e <;> simp [ih]

/-- Running an appended list runs the pieces in order. -/
theorem run_append (s : SimState) (es fs : List Event) :
    run s (es ++ fs) = run (run s es) fs := by
  simp [run, List.foldl_append]

/-- Is this event a metadata resolution? -/
def isMeta : Event → Bool
  | .metaSuccess _ => true
  | _ => false

/-- A trace in which the metadata call never resolves successfully. -/
def noMeta (es : List Event) : Bool := es.all (fun e => !isMeta e)

/-- `floorNat` on a natural-number literal. -/
theorem floorNat_natLit (n : Nat) : floorNat (n : ℚ) = n := by
  unfold floorNat
  rw [Int.floor_natCast]
  exact Int.toNat_natCast n

/-- Auxiliary invariant for monotonicity: away from `completed`, the
stored progress is exactly the floor of the local accumulator. -/
def MonoInv (s : SimState) : Prop :=
  s.job.status ≠ .completed → s.job.progress = floorNat s.localProgress

/-- The start state satisfies `MonoInv`. -/
theorem startStateMono (id quality : String) : MonoInv (startState id quality) := by
  intro _
  show (5 : ℕ) = floorNat (5 : ℚ)
  rw [show ((5 : ℚ)) = ((5 : ℕ) : ℚ) by norm_num, floorNat_natLit]

/-- Any valid non-metadata event preserves `MonoInv` and never lowers
the stored progress. -/
theorem stepMono {ph ph2 : Phase} {s : SimState} {e : Event}
    (hstep : phaseStep ph e = some ph2) (hme : isMeta e = false)
    (hinv : PhInv ph s) (hmono : MonoInv s) :
    MonoInv (step s e) ∧ s.job.progress ≤ (step s e).job.progress := by
  obtain ⟨⟨hl0, hl90, hc, hnc⟩, hph⟩ := hinv
  cases e with
  | tick r =>
    have hr : 0 ≤ r ∧ r < 5 := by
      by_cases h : 0 ≤ r ∧ r < 5
      · exact h
      · simp only [phaseStep, if_neg h] at hstep
        exact Option.noConfusion hstep
    obtain ⟨hr0, hr5⟩ := hr
    simp only [step, progressTick]
    split_ifs with hterm hlt hp0
    · exact ⟨hmono, le_rfl⟩
    · have hpnc : s.job.status ≠ .completed := fun hcmp => hterm (Or.inl hcmp)
      constructor
      · intro _
        rfl
      · show s.job.progress ≤ floorNat (s.localProgress + r)
        rw [hmono hpnc]
        exact floorNat_mono (by linarith)
    · have hpnc : s.job.status ≠ .completed := fun hcmp => hterm (Or.inl hcmp)
      constructor
      · intro _
        rfl
      · show s.job.progress ≤ floorNat 90
        rw [hmono hpnc]
        exact floorNat_mono (by linarith)
    · exact ⟨hmono, le_rfl⟩
  | metaSuccess t => simp [isMeta] at hme
  | extractSuccess =>
    have hproc : s.job.status = .processing := by
      cases ph <;> simp_all [phaseStep]
    constructor
    · intro habs
      exact absurd rfl habs
    · show s.job.progress ≤ 100
      have := hnc (by simp [hproc])
      omega
  | fail m =>
    have hproc : s.job.status = .processing := by
      cases ph <;> simp_all [phaseStep]
    constructor
    · intro _
      show s.job.progress = floorNat s.localProgress
      exact hmono (by simp [hproc])
    · exact le_rfl

/-- Along any valid trace without a metadata resolution, progress is
non-decreasing and `MonoInv` is maintained. -/
theorem runMono {ph ph2 : Phase} {s : SimState} {es : List Event}
    (h : phaseAfter ph es = some ph2) (hm : noMeta es = true)
    (hinv : PhInv ph s) (hmono : MonoInv s) :
    MonoInv (run s es) ∧ s.job.progress ≤ (run s es).job.progress := by
  induction es generalizing ph s with
  | nil => exact ⟨hmono, le_rfl⟩
  | cons e es ih =>
    simp only [phaseAfter] at h
    simp only [noMeta, List.all_cons, Bool.and_eq_true, Bool.not_eq_true'] at hm
    cases hps : phaseStep ph e with
    | none => rw [hps] at h; simp at h
    | some ph1 =>
      rw [hps] at h
      have hsm := stepMono hps hm.1 hinv hmono
      have hrest := ih h (by simpa [noMeta] using hm.2) (stepInv hps hinv) hsm.1
      exact ⟨hrest.1, le_trans hsm.2 hrest.2⟩

/-- Decompose the validity of a trace extended by one event. -/
theorem validTrace_append_one {es : List Event} {e : Event}
    (h : validTrace (es ++ [e]) = true) :
    ∃ ph1 ph2, phaseAfter Phase.awaitingMeta es = some ph1 ∧ phaseStep ph1 e = some ph2 := by
  have h' : (phaseAfter Phase.awaitingMeta (es ++ [e])).isSome = true := by
    simpa [validTrace] using h
  rw [phaseAfter_append] at h'
  cases hes : phaseAfter Phase.awaitingMeta es with
  | none => rw [hes] at h'; simp at h'
  | some ph1 =>
    rw [hes] at h'
    cases hstep : phaseStep ph1 e with
    | none => simp [phaseAfter, hstep] at h'
    | some ph2 => exact ⟨ph1, ph2, rfl, hstep⟩

/-- One valid step changes `status` only out of `processing` and into a
terminal status, and is a no-op on `status` and `progress` when the
state is already terminal. -/
theorem step_one_directional {ph ph2 : Phase} {s : SimState} {e : Event}
    (hstep : phaseStep ph e = some ph2) (hinv : PhInv ph s) :
    ((step s e).job.status ≠ s.job.status →
      s.job.status = .processing ∧
        ((step s e).job.status = .completed ∨ (step s e).job.status = .error)) ∧
    (s.job.status = .completed ∨ s.job.status = .error →
      (step s e).job.status = s.job.status ∧
        (step s e).job.progress = s.job.progress) := by
  obtain ⟨_, hph⟩ := hinv
  cases e with
  | tick r =>
    have hstat : (step s (.tick r)).job.status = s.job.status := by
      simp only [step, progressTick]
      split_ifs <;> rfl
    refine ⟨fun habs => absurd hstat habs, fun hterm => ⟨hstat, ?_⟩⟩
    simp only [step, progressTick, if_pos hterm]
  | metaSuccess t =>
    have hproc : s.job.status = .processing := by
      cases ph <;> simp_all [phaseStep]
    have hstat : (step s (.metaSuccess t)).job.status = s.job.status := by
      simp only [step, metaThen]
      split_ifs <;> simp [hproc]
    refine ⟨fun habs => absurd hstat habs, fun hterm => ?_⟩
    rcases hterm with hterm | hterm <;> rw [hproc] at hterm <;> exact Status.noConfusion hterm
  | extractSuccess =>
    have hproc : s.job.status = .processing := by
      cases ph <;> simp_all [phaseStep]
    refine ⟨fun _ => ⟨hproc, Or.inl rfl⟩, fun hterm => ?_⟩
    rcases hterm with hterm | hterm <;> rw [hproc] at hterm <;> exact Status.noConfusion hterm
  | fail m =>
    have hproc : s.job.status = .processing := by
      cases ph <;> simp_all [phaseStep]
    refine ⟨fun _ => ⟨hproc, Or.inr rfl⟩, fun hterm => ?_⟩
    rcases hterm with hterm | hterm <;> rw [hproc] at hterm <;> exact Status.noConfusion hterm

/-- Concrete evaluation: the metadata handler on the fresh start state. -/
theorem metaThenEval : metaThen (startState "1" "192") "T"
    = { job := { id := "1", status := .processing, title := "T", quality := "192",
                 progress := 20, error := none, hasInterval := true },
        localProgress := 5 } := by
  unfold metaThen startState simStart mkJob
  rw [if_pos (by decide : ("T" : String) ≠ "")]
  simp [sanitizeTitle, jsIsWordChar, jsIsSpace]

/-- Concrete evaluation: progress right after the metadata bump is 20. -/
theorem runMetaProgress :
    (run (startState "1" "192") [.metaSuccess "T"]).job.progress = 20 := by
  show (metaThen (startState "1" "192") "T").job.progress = 20
  rw [metaThenEval]

/-- Concrete evaluation: the first simulator tick after the metadata bump
writes the floor of its own local accumulator (still 5) over the 20. -/
theorem runMetaTickProgress :
    (run (startState "1" "192") [.metaSuccess "T", .tick 0]).job.progress = 5 := by
  show (progressTick (metaThen (startState "1" "192") "T") 0).job.progress = 5
  rw [metaThenEval]
  unfold progressTick
  rw [if_neg (by simp), if_pos (by norm_num : ((5 : ℚ)) < 90)]
  norm_num
  rw [show ((5 : ℚ)) = ((5 : ℕ) : ℚ) by norm_num, floorNat_natLit]

/-- C1 (counterexample): the claim that every write to `progress` stores a
value no lower than the job's current progress fails on the code.  After
the metadata handler (`server.js:162`) bumps progress to the fixed value
20, the simulator's local accumulator is still 5, so the next interval
tick (`server.js:241`) writes 5 over the 20 — a decrease, on the valid
interleaving `metaSuccess "T"` then `tick 0`. -/
theorem progress_nondecreasing_counterexample :
    ¬ (∀ (id quality : String) (es : List Event) (e : Event),
        validTrace (es ++ [e]) = true →
        (run (startState id quality) es).job.progress ≤
          (run (startState id quality) (es ++ [e])).job.progress) := by
  intro hclaim
  have h := hclaim "1" "192" [.metaSuccess "T"] (.tick 0) (by decide)
  simp only [List.cons_append, List.nil_append] at h
  rw [runMetaProgress, runMetaTickProgress] at h
  omega

/-- C1 (amended): for every job and valid event interleaving, `progress`
never exceeds 100; and in any interleaving in which the metadata call
never resolves successfully, `progress` is non-decreasing.  (The
metadata bump writes the fixed value 20 and does not adjust the
simulator's local accumulator, so around a metadata resolution progress
can decrease — see the counterexample.) -/
theorem progress_le100_and_nondecreasing_without_meta (id quality : String)
    (es : List Event) (e : Event) (h : validTrace (es ++ [e]) = true) :
    (run (startState id quality) (es ++ [e])).job.progress ≤ 100 ∧
    (noMeta (es ++ [e]) = true →
      (run (startState id quality) es).job.progress ≤
        (run (startState id quality) (es ++ [e])).job.progress) := by
  obtain ⟨ph1, ph2, hes, hse⟩ := validTrace_append_one h
  constructor
  · have hfull : phaseAfter Phase.awaitingMeta (es ++ [e]) = some ph2 := by
      rw [phaseAfter_append, hes]
      simp [phaseAfter, hse]
    obtain ⟨⟨_, _, hc, hnc⟩, _⟩ := runInv hfull (startStateInv id quality)
    by_cases hcm : (run (startState id quality) (es ++ [e])).job.status = .completed
    · rw [hc hcm]
    · have := hnc hcm
      omega
  · intro hnm
    simp only [noMeta, List.all_append, Bool.and_eq_true] at hnm
    have hmono := runMono hes (by simpa [noMeta] using hnm.1)
      (startStateInv id quality) (startStateMono id quality)
    have hinv1 := runInv hes (startStateInv id quality)
    have hone : phaseAfter ph1 [e] = some ph2 := by simp [phaseAfter, hse]
    have hmono2 := runMono hone (by simpa [noMeta] using hnm.2) hinv1 hmono.1
    rw [run_append]
    exact hmono2.2

/-- Witness for the amended C1 at a concrete valid tick-only trace. -/
theorem progress_le100_and_nondecreasing_without_meta_witness :
    (run (startState "1" "192") ([.tick 1] ++ [.tick 2])).job.progress ≤ 100 ∧
    (noMeta ([Event.tick 1] ++ [Event.tick 2]) = true →
      (run (startState "1" "192") [.tick 1]).job.progress ≤
        (run (startState "1" "192") ([.tick 1] ++ [.tick 2])).job.progress) :=
  progress_le100_and_nondecreasing_without_meta "1" "192" [.tick 1] (.tick 2) (by decide)

/-- C2: job status transitions are one-directional.  At any reachable
point of a valid interleaving, a step that changes `status` starts from
`processing` and lands in `completed` or `error`; and from a terminal
status every further event (in particular any later simulator tick)
leaves both `status` and `progress` unchanged. -/
theorem status_transitions_one_directional (id quality : String)
    (es : List Event) (e : Event) (h : validTrace (es ++ [e]) = true) :
    ((run (startState id quality) (es ++ [e])).job.status ≠
        (run (startState id quality) es).job.status →
      (run (startState id quality) es).job.status = .processing ∧
        ((run (startState id quality) (es ++ [e])).job.status = .completed ∨
          (run (startState id quality) (es ++ [e])).job.status = .error)) ∧
    ((run (startState id quality) es).job.status = .completed ∨
        (run (startState id quality) es).job.status = .error →
      (run (startState id quality) (es ++ [e])).job.status =
          (run (startState id quality) es).job.status ∧
        (run (startState id quality) (es ++ [e])).job.progress =
          (run (startState id quality) es).job.progress) := by
  obtain ⟨ph1, ph2, hes, hse⟩ := validTrace_append_one h
  have hstep := step_one_directional hse (runInv hes (startStateInv id quality))
  rw [run_append]
  exact hstep

/-- Witness for C2: a completed job then receives a simulator tick. -/
theorem status_transitions_one_directional_witness :
    ((run (startState "1" "192") ([.metaSuccess "T", .extractSuccess] ++ [.tick 3])).job.status ≠
        (run (startState "1" "192") [.metaSuccess "T", .extractSuccess]).job.status →
      (run (startState "1" "192") [.metaSuccess "T", .extractSuccess]).job.status = .processing ∧
        ((run (startState "1" "192") ([.metaSuccess "T", .extractSuccess] ++ [.tick 3])).job.status = .completed ∨
          (run (startState "1" "192") ([.metaSuccess "T", .extractSuccess] ++ [.tick 3])).job.status = .error)) ∧
    ((run (startState "1" "192") [.metaSuccess "T", .extractSuccess]).job.status = .completed ∨
        (run (startState "1" "192") [.metaSuccess "T", .extractSuccess]).job.status = .error →
      (run (startState "1" "192") ([.metaSuccess "T", .extractSuccess] ++ [.tick 3])).job.status =
          (run (startState "1" "192") [.metaSuccess "T", .extractSuccess]).job.status ∧
        (run (startState "1" "192") ([.metaSuccess "T", .extractSuccess] ++ [.tick 3])).job.progress =
          (run (startState "1" "192") [.metaSuccess "T", .extractSuccess]).job.progress) :=
  status_transitions_one_directional "1" "192" [.metaSuccess "T", .extractSuccess] (.tick 3)
    (by decide)

/-- C3: at every reachable point of a valid interleaving, a job in
`processing` status shows progress at most 90, and progress equals 100
exactly when the job is `completed`. -/
theorem processing_le90_and_100_iff_completed (id quality : String)
    (es : List Event) (h : validTrace es = true) :
    ((run (startState id quality) es).job.status = .processing →
      (run (startState id quality) es).job.progress ≤ 90) ∧
    ((run (startState id quality) es).job.progress = 100 ↔
      (run (startState id quality) es).job.status = .completed) := by
  have h' : (phaseAfter Phase.awaitingMeta es).isSome = true := by
    simpa [validTrace] using h
  obtain ⟨ph2, hph⟩ := Option.isSome_iff_exists.mp h'
  obtain ⟨⟨_, _, hc, hnc⟩, _⟩ := runInv hph (startStateInv id quality)
  refine ⟨fun hp => hnc (by simp [hp]), ?_, fun hcomp => hc hcomp⟩
  intro h100
  by_contra hne
  have := hnc hne
  omega

/-- Witness for C3 on a concrete completed run. -/
theorem processing_le90_and_100_iff_completed_witness :
    ((run (startState "1" "192") [.metaSuccess "T", .extractSuccess]).job.status = .processing →
      (run (startState "1" "192") [.metaSuccess "T", .extractSuccess]).job.progress ≤ 90) ∧
    ((run (startState "1" "192") [.metaSuccess "T", .extractSuccess]).job.progress = 100 ↔
      (run (startState "1" "192") [.metaSuccess "T", .extractSuccess]).job.status = .completed) :=
  processing_le90_and_100_iff_completed "1" "192" [.metaSuccess "T", .extractSuccess] (by decide)

/-! ## The `jobs` registry and the HTTP handlers -/

/-- The `jobs` `Map` (`server.js:16`), as an association list with
JavaScript `Map` semantics: `set` replaces in place or appends. -/
abbrev JobMap := List (String × Job)

/-- `jobs.get(k)`. -/
def mapGet (m : JobMap) (k : String) : Option Job :=
  match m.find? (fun p => p.1 = k) with
  | some p => some p.2
  | none => none

/-- `jobs.set(k, v)`: replace the entry for `k` if present, else append. -/
def mapSet (m : JobMap) (k : String) (v : Job) : JobMap :=
  if m.any (fun p => p.1 = k) then
    m.map (fun p => if p.1 = k then (k, v) else p)
  else m ++ [(k, v)]

/-- `jobs.delete(k)`. -/
def mapDelete (m : JobMap) (k : String) : JobMap :=
  m.filter (fun p => p.1 ≠ k)

/-- `jobs.has(k)`. -/
def mapHas (m : JobMap) (k : String) : Bool :=
  m.any (fun p => p.1 = k)

/-- JS `String.prototype.includes`. -/
def jsIncludes (s sub : String) : Bool := decide (sub.toList <:+: s.toList)

/-- The URL check of `server.js:30`: a truthy `url` containing one of the
two recognized video-host domain markers. -/
def isValidYoutubeUrl (url : String) : Bool :=
  !(url == "") && (jsIncludes url "youtube.com/" || jsIncludes url "youtu.be/")

/-- Lookup steps through one cons cell. -/
theorem mapGet_cons (q : String × Job) (m : JobMap) (k : String) :
    mapGet (q :: m) k = if q.1 = k then some q.2 else mapGet m k := by
  unfold mapGet
  by_cases hq : q.1 = k
  · simp [List.find?, hq]
  · simp [List.find?, hq]

/-- In-place replacement stores the new value when the key is present. -/
theorem mapGet_map_replace (m : JobMap) (k : String) (v : Job) :
    m.any (fun p => p.1 = k) = true →
    mapGet (m.map (fun p => if p.1 = k then (k, v) else p)) k = some v := by
  induction m with
  | nil =>
    intro h
    simp at h
  | cons q m ih =>
    intro h
    by_cases hq : q.1 = k
    · simp only [List.map_cons, if_pos hq]
      simp [mapGet, List.find?]
    · simp only [List.map_cons, if_neg hq]
      rw [mapGet_cons, if_neg hq]
      apply ih
      simp only [List.any_cons, Bool.or_eq_true, decide_eq_true_eq] at h
      exact List.any_eq_true.mpr (by simpa using h.resolve_left hq)

/-- Appending a fresh binding makes it visible when the key was absent. -/
theorem mapGet_append_absent (m : JobMap) (k : String) (v : Job) :
    m.any (fun p => p.1 = k) = false →
    mapGet (m ++ [(k, v)]) k = some v := by
  induction m with
  | nil =>
    intro _
    simp [mapGet, List.find?]
  | cons q m ih =>
    intro h
    simp only [List.any_cons, Bool.or_eq_false_iff, decide_eq_false_iff_not] at h
    simp only [List.cons_append]
    rw [mapGet_cons, if_neg h.1]
    exact ih (by simpa using h.2)

/-- `jobs.set(k, v)` makes `jobs.get(k)` return `v`. -/
theorem mapGet_mapSet_self (m : JobMap) (k : String) (v : Job) :
    mapGet (mapSet m k v) k = some v := by
  unfold mapSet
  split_ifs with hany
  · exact mapGet_map_replace m k v hany
  · refine mapGet_append_absent m k v ?_
    cases h : m.any (fun p => p.1 = k) with
    | false => rfl
    | true => exact absurd h hany

/-- What `POST /api/convert` sends back. -/
inductive ConvertResponse where
  | badRequest (body : String)
  | accepted (jobId : String) (title : String)
deriving DecidableEq, Repr

/-- The `POST /api/convert` handler (`server.js:25-54`): reject an
invalid URL with a 400 body and no registry change; otherwise create a
job keyed by `Date.now().toString()` (`now` is the millisecond clock
reading), respond with the job id immediately, and only then start the
background work — the response never depends on any provider call. -/
def convertHandler (jobs : JobMap) (now : Nat) (url : String) (quality : Option String) :
    ConvertResponse × JobMap :=
  if !isValidYoutubeUrl url then
    (.badRequest "Invalid YouTube URL", jobs)
  else
    let jobId := toString now
    let job : Job :=
      { id := jobId
        status := .processing
        title := "Unknown Title"
        quality := quality.getD "192"
        progress := 0
        error := none
        hasInterval := false }
    (.accepted jobId "Processing...", mapSet jobs jobId job)

/-- C4: `POST /api/convert` accepts a URL exactly when it contains one of
the two recognized video-host domain markers; an invalid URL yields a 400
error body and leaves the registry untouched; a valid URL yields the job
id immediately (the handler's response is built before any provider call)
and stores a `processing` job under that id. -/
theorem convert_accepts_iff_marker (jobs : JobMap) (now : Nat) (url : String)
    (quality : Option String) :
    (isValidYoutubeUrl url =
      (jsIncludes url "youtube.com/" || jsIncludes url "youtu.be/")) ∧
    (isValidYoutubeUrl url = false →
      convertHandler jobs now url quality = (.badRequest "Invalid YouTube URL", jobs)) ∧
    (isValidYoutubeUrl url = true →
      (convertHandler jobs now url quality).1 = .accepted (toString now) "Processing..." ∧
        mapGet (convertHandler jobs now url quality).2 (toString now) =
          some { id := toString now
                 status := .processing
                 title := "Unknown Title"
                 quality := quality.getD "192"
                 progress := 0
                 error := none
                 hasInterval := false }) := by
  refine ⟨?_, ?_, ?_⟩
  · by_cases hu : url = ""
    · subst hu
      decide
    · simp [isValidYoutubeUrl, hu]
  · intro hinv
    simp [convertHandler, hinv]
  · intro hv
    constructor
    · simp [convertHandler, hv]
    · simp only [convertHandler, hv, Bool.not_true, Bool.false_eq_true, if_false]
      exact mapGet_mapSet_self jobs (toString now) _

/-- Witness for C4 with a valid URL on an empty registry. -/
theorem convert_accepts_iff_marker_witness :
    (convertHandler [] 5 "https://youtu.be/x" none).1 = .accepted (toString 5) "Processing..." ∧
      mapGet (convertHandler [] 5 "https://youtu.be/x" none).2 (toString 5) =
        some { id := toString 5
               status := .processing
               title := "Unknown Title"
               quality := (none : Option String).getD "192"
               progress := 0
               error := none
               hasInterval := false } :=
  (convert_accepts_iff_marker [] 5 "https://youtu.be/x" none).2.2 (by decide)

/-- C5 (code behaviour at the failing input): two accepted conversion
requests handled during the same millisecond both read the same
`Date.now()` value, receive the *same* job id, and the second
`jobs.set` overwrites the first job's registry entry, leaving a single
job record. -/
theorem jobId_collision_same_millisecond :
    (convertHandler [] 99 "youtube.com/watch" none).1 = .accepted "99" "Processing..." ∧
    (convertHandler (convertHandler [] 99 "youtube.com/watch" none).2
        99 "youtu.be/abc" (some "320")).1 = .accepted "99" "Processing..." ∧
    ((convertHandler (convertHandler [] 99 "youtube.com/watch" none).2
        99 "youtu.be/abc" (some "320")).2).length = 1 ∧
    mapGet (convertHandler (convertHandler [] 99 "youtube.com/watch" none).2
        99 "youtu.be/abc" (some "320")).2 "99" =
      some { id := "99"
             status := .processing
             title := "Unknown Title"
             quality := "320"
             progress := 0
             error := none
             hasInterval := false } := by
  decide

/-! ## Metadata sanitization (C6) -/

/-- C6 (counterexample): the claim says the stored title has *every*
non-alphanumeric, non-whitespace character stripped, but the regex
`/[^\w\s]/gi` keeps underscores (`\w` includes `_`).  On provider title
`"a_b"` the code stores `"a_b"`, while the claim's sanitization yields
`"ab"`. -/
theorem sanitize_keeps_underscore_counterexample :
    (step (startState "1" "192") (.metaSuccess "a_b")).job.title = "a_b" ∧
    specSanitize "a_b" = "ab" ∧
    (step (startState "1" "192") (.metaSuccess "a_b")).job.title ≠ specSanitize "a_b" := by
  refine ⟨?_, by decide, ?_⟩
  · show (metaThen (startState "1" "192") "a_b").job.title = "a_b"
    unfold metaThen startState simStart mkJob
    rw [if_pos (by decide : ("a_b" : String) ≠ "")]
    decide
  · show (metaThen (startState "1" "192") "a_b").job.title ≠ specSanitize "a_b"
    unfold metaThen startState simStart mkJob
    rw [if_pos (by decide : ("a_b" : String) ≠ "")]
    decide

/-- C6 (amended): when the metadata call succeeds with a non-empty
(truthy) title, the handler stores the title with every character outside
`\w` (ASCII letters, digits, underscore) and whitespace removed —
underscores are kept — and sets progress to the fixed value 20. -/
theorem metaThen_sets_sanitized_title_and_progress20 (s : SimState) (t : String)
    (h : t ≠ "") :
    (step s (.metaSuccess t)).job.title = sanitizeTitle t ∧
    (step s (.metaSuccess t)).job.progress = 20 := by
  simp [step, metaThen, h]

/-- Witness for the amended C6 on a concrete title. -/
theorem metaThen_sets_sanitized_title_and_progress20_witness :
    (step (startState "1" "192") (.metaSuccess "My Song_1!")).job.title =
      sanitizeTitle "My Song_1!" ∧
    (step (startState "1" "192") (.metaSuccess "My Song_1!")).job.progress = 20 :=
  metaThen_sets_sanitized_title_and_progress20 (startState "1" "192") "My Song_1!" (by decide)

/-! ## Failure handling and the downloads directory (C7) -/

/-- The artifact file name derived from a job id: `${jobId}.mp3`
(`server.js:85`, `server.js:142`). -/
def artifactName (jobId : String) : String := jobId ++ ".mp3"

/-- The `.catch` handler of `processConversion` with its file-system part
(`server.js:196-219`): apply `conversionCatch` to the job (clear the
interval, set status `error`, record the message), then try to delete the
artifact at the derived output path if it exists; an exception from the
deletion (`unlinkFails`) is caught and logged, changing nothing else.
`files` is the content of the `downloads` directory. -/
def processFail (s : SimState) (msg : String) (files : List String)
    (unlinkFails : Bool) : SimState × List String :=
  let s2 := conversionCatch s msg
  let files2 :=
    if files.contains (artifactName s.job.id) then
      if unlinkFails then files
      else files.filter (fun f => f ≠ artifactName s.job.id)
    else files
  (s2, files2)

/-- C7: on a metadata or extraction failure the Orchestrator cancels the
Progress Simulator, sets status `error` with the failure description,
and best-effort deletes the artifact at the id-derived path: the job's
resulting state does not depend on whether that deletion fails, and when
the deletion succeeds the artifact is gone and no other file is touched. -/
theorem failure_sets_error_and_cleans_artifact (s : SimState) (msg : String)
    (files : List String) (unlinkFails : Bool) :
    (processFail s msg files unlinkFails).1.job.status = .error ∧
    (processFail s msg files unlinkFails).1.job.error = some msg ∧
    (processFail s msg files unlinkFails).1.job.hasInterval = false ∧
    (processFail s msg files unlinkFails).1 = (processFail s msg files false).1 ∧
    (unlinkFails = false →
      (processFail s msg files unlinkFails).2 =
        files.filter (fun f => f ≠ artifactName s.job.id)) := by
  refine ⟨rfl, rfl, rfl, rfl, ?_⟩
  intro h
  subst h
  by_cases hc : files.contains (artifactName s.job.id) = true
  · simp only [processFail]
    rw [if_pos hc, if_neg Bool.false_ne_true]
  · simp only [processFail, if_neg hc]
    symm
    rw [List.filter_eq_self]
    intro a ha
    refine decide_eq_true ?_
    intro heq
    subst heq
    exact hc (List.elem_iff.mpr ha)

/-- Witness for C7 on a concrete job, directory and message. -/
theorem failure_sets_error_and_cleans_artifact_witness :
    (processFail (startState "7" "192") "boom" ["7.mp3", "x.mp3"] false).1.job.status = .error ∧
    (processFail (startState "7" "192") "boom" ["7.mp3", "x.mp3"] false).2 = ["x.mp3"] := by
  have h := failure_sets_error_and_cleans_artifact (startState "7" "192") "boom"
    ["7.mp3", "x.mp3"] false
  refine ⟨h.1, ?_⟩
  rw [h.2.2.2.2 rfl]
  decide

/-! ## `GET /api/download/:jobId` (C8) -/

/-- After `jobs.delete(k)`, `jobs.get(k)` is absent. -/
theorem mapGet_mapDelete_self (m : JobMap) (k : String) :
    mapGet (mapDelete m k) k = none := by
  induction m with
  | nil => rfl
  | cons p m ih =>
    by_cases hp : p.1 = k
    · simpa [mapDelete, List.filter_cons, hp] using ih
    · simp only [mapDelete, List.filter_cons] at ih ⊢
      rw [show (decide (p.1 ≠ k)) = true by simp [hp], if_pos rfl]
      rw [mapGet_cons, if_neg hp]
      exact ih

/-- `jobs.delete(k)` leaves every other key's binding unchanged. -/
theorem mapGet_mapDelete_ne (m : JobMap) {k q : String} (h : q ≠ k) :
    mapGet (mapDelete m k) q = mapGet m q := by
  induction m with
  | nil => rfl
  | cons p m ih =>
    by_cases hp : p.1 = k
    · have hpq : ¬(p.1 = q) := by
        rw [hp]
        exact fun hh => h hh.symm
      simp only [mapDelete, List.filter_cons] at ih ⊢
      rw [show (decide (p.1 ≠ k)) = false by simp [hp], if_neg Bool.false_ne_true]
      rw [ih, mapGet_cons, if_neg hpq]
    · simp only [mapDelete, List.filter_cons] at ih ⊢
      rw [show (decide (p.1 ≠ k)) = true by simp [hp], if_pos rfl]
      rw [mapGet_cons, mapGet_cons]
      by_cases hpq : p.1 = q
      · rw [if_pos hpq, if_pos hpq]
      · rw [if_neg hpq, if_neg hpq, ih]

/-- Outcome of the download route: a 404 JSON error, or a file transfer
(`res.download`) of `path` under the content-disposition `filename`,
with a cleanup of artifact and job record scheduled `cleanupDelayMs`
milliseconds after the transfer callback fires. -/
inductive DownloadResult where
  | notFound (body : String)
  | fileDownload (path : String) (filename : String) (cleanupDelayMs : Nat)
deriving DecidableEq, Repr

/-- The `GET /api/download/:jobId` handler (`server.js:77-110`): 404 when
the job is absent or not `completed`, 404 when the artifact file is not
on disk, otherwise stream the artifact as `${job.title}.mp3` and schedule
the delayed cleanup 30000 ms (30 s) after the transfer finishes. -/
def downloadHandler (jobs : JobMap) (files : List String) (jobId : String) :
    DownloadResult :=
  match mapGet jobs jobId with
  | none => .notFound "File not ready or not found"
  | some job =>
    if job.status ≠ .completed then .notFound "File not ready or not found"
    else if !(files.contains (artifactName jobId)) then .notFound "File not found"
    else .fileDownload (artifactName jobId) (job.title ++ ".mp3") 30000

/-- The `setTimeout` body scheduled by the download handler
(`server.js:98-108`): delete the artifact if it still exists, then delete
the job record; an exception from `unlinkSync` is caught, which also
skips the `jobs.delete` that follows it inside the same `try`. -/
def downloadCleanup (jobs : JobMap) (files : List String) (jobId : String)
    (unlinkFails : Bool) : JobMap × List String :=
  if files.contains (artifactName jobId) then
    if unlinkFails then (jobs, files)
    else (mapDelete jobs jobId, files.filter (fun f => f ≠ artifactName jobId))
  else (mapDelete jobs jobId, files)

/-- Reduction of the download route when the job is absent. -/
theorem downloadHandler_none {jobs : JobMap} {jobId : String}
    (hj : mapGet jobs jobId = none) (files : List String) :
    downloadHandler jobs files jobId = .notFound "File not ready or not found" := by
  unfold downloadHandler
  rw [hj]

/-- Reduction of the download route when the job is present. -/
theorem downloadHandler_some {jobs : JobMap} {jobId : String} {job : Job}
    (hj : mapGet jobs jobId = some job) (files : List String) :
    downloadHandler jobs files jobId =
      if job.status ≠ .completed then .notFound "File not ready or not found"
      else if !(files.contains (artifactName jobId)) then .notFound "File not found"
      else .fileDownload (artifactName jobId) (job.title ++ ".mp3") 30000 := by
  unfold downloadHandler
  rw [hj]

/-- C8: the download route 404s exactly when the job is absent, not
`completed`, or the id-derived artifact is missing on disk; otherwise it
streams the artifact under `{title}.mp3` and schedules, with a 30000 ms
(30 s) grace delay, a cleanup that removes both the artifact and the job
record. -/
theorem download_contract (jobs : JobMap) (files : List String) (jobId : String) :
    ((∃ msg, downloadHandler jobs files jobId = .notFound msg) ↔
      (mapGet jobs jobId = none ∨
        (∃ job, mapGet jobs jobId = some job ∧ job.status ≠ .completed) ∨
        files.contains (artifactName jobId) = false)) ∧
    (∀ job, mapGet jobs jobId = some job → job.status = .completed →
      files.contains (artifactName jobId) = true →
      downloadHandler jobs files jobId =
        .fileDownload (artifactName jobId) (job.title ++ ".mp3") 30000 ∧
      mapGet (downloadCleanup jobs files jobId false).1 jobId = none ∧
      (downloadCleanup jobs files jobId false).2 =
        files.filter (fun f => f ≠ artifactName jobId)) := by
  constructor
  · constructor
    · rintro ⟨msg, hmsg⟩
      cases hj : mapGet jobs jobId with
      | none => exact Or.inl rfl
      | some job =>
        rw [downloadHandler_some hj] at hmsg
        by_cases hst : job.status = .completed
        · rw [if_neg (by simp [hst])] at hmsg
          by_cases hf : files.contains (artifactName jobId) = true
          · rw [if_neg (by rw [hf]; simp)] at hmsg
            exact absurd hmsg (by simp)
          · refine Or.inr (Or.inr ?_)
            cases h : files.contains (artifactName jobId) with
            | false => rfl
            | true => exact absurd h hf
        · exact Or.inr (Or.inl ⟨job, rfl, hst⟩)
    · intro hcases
      rcases hcases with hj | ⟨job, hj, hst⟩ | hf
      · exact ⟨"File not ready or not found", downloadHandler_none hj files⟩
      · refine ⟨"File not ready or not found", ?_⟩
        rw [downloadHandler_some hj, if_pos hst]
      · cases hj : mapGet jobs jobId with
        | none => exact ⟨"File not ready or not found", downloadHandler_none hj files⟩
        | some job =>
          by_cases hst : job.status = .completed
          · refine ⟨"File not found", ?_⟩
            rw [downloadHandler_some hj, if_neg (by simp [hst]), if_pos (by rw [hf]; rfl)]
          · refine ⟨"File not ready or not found", ?_⟩
            rw [downloadHandler_some hj, if_pos hst]
  · intro job hj hst hf
    refine ⟨?_, ?_, ?_⟩
    · rw [downloadHandler_some hj, if_neg (by simp [hst]), if_neg (by rw [hf]; simp)]
    · unfold downloadCleanup
      rw [if_pos hf, if_neg Bool.false_ne_true]
      exact mapGet_mapDelete_self jobs jobId
    · unfold downloadCleanup
      rw [if_pos hf, if_neg Bool.false_ne_true]

/-- Witness for C8: a completed job whose artifact is on disk. -/
theorem download_contract_witness :
    downloadHandler
        [("5", { id := "5", status := .completed, title := "T", quality := "192",
                 progress := 100, error := none, hasInterval := false })]
        ["5.mp3"] "5" =
      .fileDownload (artifactName "5")
        (Job.title { id := "5", status := .completed, title := "T", quality := "192",
                     progress := 100, error := none, hasInterval := false } ++ ".mp3") 30000 ∧
    mapGet (downloadCleanup
        [("5", { id := "5", status := .completed, title := "T", quality := "192",
                 progress := 100, error := none, hasInterval := false })]
        ["5.mp3"] "5" false).1 "5" = none ∧
    (downloadCleanup
        [("5", { id := "5", status := .completed, title := "T", quality := "192",
                 progress := 100, error := none, hasInterval := false })]
        ["5.mp3"] "5" false).2 =
      ["5.mp3"].filter (fun f => f ≠ artifactName "5") :=
  (download_contract
      [("5", { id := "5", status := .completed, title := "T", quality := "192",
               progress := 100, error := none, hasInterval := false })]
      ["5.mp3"] "5").2
    { id := "5", status := .completed, title := "T", quality := "192",
      progress := 100, error := none, hasInterval := false }
    (by decide) (by decide) (by decide)

/-! ## The Retention Sweeper (C9, C10) -/

/-- A file in the `downloads` directory as seen by one sweep pass: its
name, its last-modified time in ms (`stats.mtimeMs`), and whether the
file-system calls for this entry (`statSync`/`unlinkSync`) throw during
the pass (`errs`), which the per-file `try/catch` swallows. -/
structure FileEnt where
  name : String
  mtime : Int
  errs : Bool
deriving DecidableEq, Repr

/-- Retention threshold (`server.js:282`): files strictly older than one
hour (3600000 ms) are reclaimed. -/
def cleanupThresholdMs : Int := 3600000

/-- `path.parse(file).name`: the file name with its last extension
removed; a dot at the start of the name does not begin an extension. -/
def stripExt (s : String) : String :=
  let l := s.toList
  match l.reverse.findIdx? (fun c => c = '.') with
  | none => s
  | some i =>
    let keep := l.length - 1 - i
    if keep = 0 then s else String.mk (l.take keep)

/-- Whether a sweep pass at time `now` leaves the file in place: it does
when the file errors out (caught per-file) or is not yet stale. -/
def sweepKeeps (now : Int) (f : FileEnt) : Bool :=
  f.errs || !(now - f.mtime > cleanupThresholdMs)

/-- Processing of one directory entry in the cleanup interval
(`server.js:275-295`): an entry whose file-system calls throw is only
logged; otherwise a file strictly older than the threshold is unlinked
(second component `true`) and the job under the corresponding id, when
still registered, is deleted from the registry. -/
def sweepFile (now : Int) (jobs : JobMap) (f : FileEnt) : JobMap × Bool :=
  if f.errs then (jobs, false)
  else if now - f.mtime > cleanupThresholdMs then
    (if mapHas jobs (stripExt f.name) then mapDelete jobs (stripExt f.name) else jobs,
      true)
  else (jobs, false)

/-- Accumulating step of the sweep over the directory listing: thread the
registry through `sweepFile` and collect the surviving files. -/
def sweepStep (now : Int) (acc : JobMap × List FileEnt) (f : FileEnt) :
    JobMap × List FileEnt :=
  let r := sweepFile now acc.1 f
  (r.1, if r.2 then acc.2 else acc.2 ++ [f])

/-- One full pass of the cleanup interval (`server.js:269-300`): the
surviving registry and the surviving directory content. -/
def sweep (now : Int) (jobs : JobMap) (files : List FileEnt) :
    JobMap × List FileEnt :=
  files.foldl (sweepStep now) (jobs, [])

/-- A sweep unlinks an entry exactly when it is error-free and stale. -/
theorem sweepFile_snd (now : Int) (jobs : JobMap) (f : FileEnt) :
    (sweepFile now jobs f).2 = !sweepKeeps now f := by
  unfold sweepFile sweepKeeps
  by_cases h1 : f.errs = true
  · rw [if_pos h1, h1]
    simp
  · have h1f : f.errs = false := by
      cases hx : f.errs with
      | false => rfl
      | true => exact absurd hx h1
    rw [if_neg h1, h1f]
    by_cases h2 : now - f.mtime > cleanupThresholdMs
    · rw [if_pos h2, decide_eq_true h2]
      simp
    · rw [if_neg h2, decide_eq_false h2]
      simp

/-- `jobs.has(k)` agrees with `jobs.get(k)` being present. -/
theorem mapHas_eq_isSome (m : JobMap) (k : String) :
    mapHas m k = (mapGet m k).isSome := by
  induction m with
  | nil => rfl
  | cons p m ih =>
    rw [mapGet_cons]
    by_cases hp : p.1 = k
    · simp [mapHas, List.any_cons, hp]
    · simp only [mapHas, List.any_cons] at ih ⊢
      rw [if_neg hp]
      simp [hp, ih]

/-- Registry effect of one directory entry, key by key. -/
theorem sweepFile_fst (now : Int) (jobs : JobMap) (f : FileEnt) (k : String) :
    mapGet (sweepFile now jobs f).1 k =
      if (!sweepKeeps now f && (stripExt f.name == k)) = true then none
      else mapGet jobs k := by
  unfold sweepFile sweepKeeps
  by_cases herr : f.errs = true
  · rw [if_pos herr, herr]
    simp
  · have herr2 : f.errs = false := by
      cases h : f.errs with
      | false => rfl
      | true => exact absurd h herr
    rw [if_neg herr, herr2]
    by_cases hold : now - f.mtime > cleanupThresholdMs
    · rw [if_pos hold, decide_eq_true hold]
      simp only [Bool.not_true, Bool.false_or, Bool.not_false, Bool.true_and]
      by_cases hk : stripExt f.name = k
      · by_cases hhas : mapHas jobs (stripExt f.name) = true
        · rw [if_pos hhas,
            if_pos (show (stripExt f.name == k) = true by simp [hk])]
          show mapGet (mapDelete jobs (stripExt f.name)) k = none
          rw [hk]
          exact mapGet_mapDelete_self jobs k
        · rw [if_neg hhas,
            if_pos (show (stripExt f.name == k) = true by simp [hk])]
          show mapGet jobs k = none
          rw [← hk]
          cases hg : mapGet jobs (stripExt f.name) with
          | none => rfl
          | some job =>
            rw [mapHas_eq_isSome, hg] at hhas
            exact absurd rfl hhas
      · by_cases hhas : mapHas jobs (stripExt f.name) = true
        · rw [if_pos hhas,
            if_neg (show ¬((stripExt f.name == k) = true) by simp [hk])]
          show mapGet (mapDelete jobs (stripExt f.name)) k = mapGet jobs k
          exact mapGet_mapDelete_ne jobs (fun hh => hk hh.symm)
        · rw [if_neg hhas,
            if_neg (show ¬((stripExt f.name == k) = true) by simp [hk])]
    · rw [if_neg hold, decide_eq_false hold]
      simp

/-- Surviving files of a sweep: exactly the kept ones, in order. -/
theorem sweep_files_aux (now : Int) (files : List FileEnt) :
    ∀ (jobs : JobMap) (acc : List FileEnt),
      (files.foldl (sweepStep now) (jobs, acc)).2 =
        acc ++ files.filter (sweepKeeps now) := by
  induction files with
  | nil =>
    intro jobs acc
    simp
  | cons f fs ih =>
    intro jobs acc
    simp only [List.foldl_cons, List.filter_cons, sweepStep]
    rw [sweepFile_snd, ih]
    cases hk : sweepKeeps now f <;> simp

/-- Surviving registry of a sweep, key by key. -/
theorem sweep_jobs_aux (now : Int) (files : List FileEnt) :
    ∀ (jobs : JobMap) (acc : List FileEnt) (k : String),
      mapGet (files.foldl (sweepStep now) (jobs, acc)).1 k =
        if (files.any fun f => !sweepKeeps now f && (stripExt f.name == k)) = true
        then none
        else mapGet jobs k := by
  induction files with
  | nil =>
    intro jobs acc k
    simp
  | cons f fs ih =>
    intro jobs acc k
    simp only [List.foldl_cons, List.any_cons, sweepStep]
    rw [ih, sweepFile_fst]
    by_cases h1 : (!sweepKeeps now f && (stripExt f.name == k)) = true
    · simp [h1]
    · have h1f : (!sweepKeeps now f && (stripExt f.name == k)) = false := by
        cases hx : (!sweepKeeps now f && (stripExt f.name == k)) with
        | false => rfl
        | true => exact absurd hx h1
      simp [h1f]

/-- C9: a sweep pass at time `now` deletes exactly the artifact files
whose age `now − mtime` strictly exceeds one hour and whose processing
raises no error (an error on one entry is confined to that entry),
leaving every younger artifact in place; and it removes exactly the
registry entries whose key is the base name of a deleted file. -/
theorem sweep_deletes_exactly_expired (now : Int) (jobs : JobMap)
    (files : List FileEnt) :
    (sweep now jobs files).2 =
      files.filter (fun f => f.errs || !(now - f.mtime > cleanupThresholdMs)) ∧
    (∀ k, mapGet (sweep now jobs files).1 k =
      if (files.any fun f =>
            (!f.errs && (now - f.mtime > cleanupThresholdMs)) && (stripExt f.name == k)) = true
      then none
      else mapGet jobs k) := by
  constructor
  · rw [show (sweep now jobs files).2 = files.filter (sweepKeeps now) from
      sweep_files_aux now files jobs []]
    rfl
  · intro k
    rw [show (sweep now jobs files).1 = (files.foldl (sweepStep now) (jobs, [])).1 from rfl]
    rw [sweep_jobs_aux now files jobs [] k]
    have hfun : (fun f => !sweepKeeps now f && (stripExt f.name == k)) =
        (fun f : FileEnt =>
          (!f.errs && (now - f.mtime > cleanupThresholdMs)) && (stripExt f.name == k)) := by
      funext f
      unfold sweepKeeps
      cases herr : f.errs <;>
        cases hd : (decide (now - f.mtime > cleanupThresholdMs)) <;> simp [herr, hd]
    rw [hfun]

/-- C10: the sweeper removes a registry entry only as a side effect of
deleting that job's on-disk artifact.  When no directory entry's base
name matches the job id (as for a failed conversion, whose artifact the
failure path already deleted), a sweep pass leaves the job's registry
binding untouched; and the download route 404s on such a non-completed
job without scheduling any cleanup, so nothing else removes it either. -/
theorem sweep_preserves_job_without_artifact (now : Int) (jobs : JobMap)
    (files : List FileEnt) (jobId : String)
    (h : ∀ f ∈ files, stripExt f.name ≠ jobId) :
    mapGet (sweep now jobs files).1 jobId = mapGet jobs jobId ∧
    (∀ job, mapGet jobs jobId = some job → job.status ≠ .completed →
      downloadHandler jobs (files.map FileEnt.name) jobId =
        .notFound "File not ready or not found") := by
  constructor
  · rw [show (sweep now jobs files).1 = (files.foldl (sweepStep now) (jobs, [])).1 from rfl]
    rw [sweep_jobs_aux now files jobs [] jobId]
    have hany : (files.any fun f => !sweepKeeps now f && (stripExt f.name == jobId)) = false := by
      rw [List.any_eq_false]
      intro f hf
      simp only [Bool.and_eq_true, beq_iff_eq, not_and]
      intro _ heq
      exact h f hf heq
    rw [hany]
    simp
  · intro job hj hst
    rw [downloadHandler_some hj, if_pos hst]

/-- Witness for C10: an error job with no artifact survives a sweep that
reclaims an unrelated stale file. -/
theorem sweep_preserves_job_without_artifact_witness :
    mapGet (sweep 4000000
        [("7", { id := "7", status := .error, title := "Unknown Title", quality := "192",
                 progress := 17, error := some "boom", hasInterval := false })]
        [{ name := "5.mp3", mtime := 0, errs := false }]).1 "7" =
      mapGet
        [("7", { id := "7", status := .error, title := "Unknown Title", quality := "192",
                 progress := 17, error := some "boom", hasInterval := false })] "7" ∧
    (∀ job, mapGet
        [("7", { id := "7", status := .error, title := "Unknown Title", quality := "192",
                 progress := 17, error := some "boom", hasInterval := false })] "7" =
          some job →
      job.status ≠ .completed →
      downloadHandler
          [("7", { id := "7", status := .error, title := "Unknown Title", quality := "192",
                   progress := 17, error := some "boom", hasInterval := false })]
          ([{ name := "5.mp3", mtime := 0, errs := false }].map FileEnt.name) "7" =
        .notFound "File not ready or not found") :=
  sweep_preserves_job_without_artifact 4000000
    [("7", { id := "7", status := .error, title := "Unknown Title", quality := "192",
             progress := 17, error := some "boom", hasInterval := false })]
    [{ name := "5.mp3", mtime := 0, errs := false }] "7" (by decide)

end YoutubeToMp3
